import Mathlib

/-!
# Verification of the SEO inverted-index engine (`src/seo.py`)

Shallow embedding of the Python source:

* `Document` (seo.py lines 7–44).  The Python object stores a
  `content_ref` (file path) and `read_content` resolves it through file
  I/O, returning the text or `None` on failure.  Content resolution is an
  external collaborator, so the embedded `Document` carries the *resolved*
  content as an `Option String` (`none` = read failure).
* `Document.extract_keywords` (lines 34–44): lowercase, strip characters
  that are neither `\w` (alphanumeric or underscore) nor `\s`
  (whitespace) via `re.sub(r'[^\w\s]', '', ·)`, split on whitespace runs
  with `str.split()`, collect into a set.  Modelled over the ASCII
  fragment of Python's character classes.
* `InvertedIndex` (lines 47–69) with its `index` dict (keyword → set of
  doc ids) and `cache` dict (raw query → previously returned set).
  Python dicts are embedded as functions into `Option`; absence of a key
  is `none`.  `get_documents` may raise (`keyword.lower()` on `None`),
  so it returns `Except`.
* `PriorityQueue` (lines 72–90) over `heapq`.  `heapq` is an external
  library whose contract is: the heap holds a multiset and `heappop`
  removes a least element (tuples compare lexicographically).  It is
  embedded as an order-maintained list (`List.orderedInsert` / head),
  which produces the identical sequence of popped elements.
* `add_document_in_parallel` (lines 93–96) and the thread-pool driver:
  embedded as an interleaving semantics over the atomic dict/set
  operations of `add_document` (see the `PAct` section below).
-/

/-! ## Tokenizer (seo.py lines 34–44) -/

/-- ASCII fragment of Python's regex class `\w`: alphanumeric or underscore. -/
def isWordChar (c : Char) : Bool :=
  c.isAlphanum || c == '_'

/-- ASCII fragment of Python's whitespace class `\s` (also the separators
used by `str.split()` with no argument). -/
def isPySpace (c : Char) : Bool :=
  c == ' ' || c == '\t' || c == '\n' || c == '\r' || c == '\x0b' || c == '\x0c'

/-- A character survives `re.sub(r'[^\w\s]', '', ·)` iff it is a word
character or whitespace. -/
def keepChar (c : Char) : Bool :=
  isWordChar c || isPySpace c

/-- Python's `str.lower()` (ASCII fragment), applied characterwise. -/
def pyLower (s : String) : String :=
  String.mk (s.data.map Char.toLower)

/-- Python's `str.split()` with no separator: split on runs of whitespace,
returning only the non-empty words.  `acc` holds the (reversed) word
currently being scanned. -/
def wsSplitAux : List Char → List Char → List (List Char)
  | [], acc => if acc.isEmpty then [] else [acc.reverse]
  | c :: cs, acc =>
    if isPySpace c then
      if acc.isEmpty then wsSplitAux cs [] else acc.reverse :: wsSplitAux cs []
    else
      wsSplitAux cs (c :: acc)

/-- Line 42 of seo.py: `re.sub(r'[^\w\s]', '', content.lower()).split()`. -/
def pyWords (content : String) : List String :=
  (wsSplitAux ((content.data.map Char.toLower).filter keepChar) []).map String.mk

/-- A document, with its content already resolved by the external
content-access collaborator (`read_content`): `none` models a read
failure. -/
structure Document where
  docId : ℕ
  content : Option String
deriving DecidableEq

/-- Lines 34–44 of seo.py: `extract_keywords` returns the empty set when
content could not be read, otherwise the set of words of the cleaned,
lowercased content. -/
def Document.extract_keywords (d : Document) : Finset String :=
  match d.content with
  | none => ∅
  | some c => (pyWords c).toFinset

/-! ## InvertedIndex (seo.py lines 47–69) -/

/-- A Python exception escaping `get_documents`: `keyword.lower()` raises
`AttributeError` when the keyword is `None`. -/
inductive PyErr where
  | attributeError (msg : String)
deriving DecidableEq

/-- The inverted index (line 50, `self.index`: dict keyword → set of doc
ids) together with its lookup cache (line 51, `self.cache`: dict keyed by
the *raw* query value, which may be `None`). -/
structure InvertedIndex where
  index : String → Option (Finset ℕ)
  cache : Option String → Option (Finset ℕ)

/-- Lines 48–51: a fresh index with both dicts empty. -/
def InvertedIndex.init : InvertedIndex :=
  { index := fun _ => none, cache := fun _ => none }

/-- Lines 53–59 of seo.py: for each extracted keyword, ensure the keyword
has an entry (`if keyword not in self.index: self.index[keyword] = set()`)
and add the document id (`self.index[keyword].add(document.doc_id)`).
The loop touches each keyword independently, so its net effect is this
pointwise update.  The cache is not touched. -/
def InvertedIndex.add_document (st : InvertedIndex) (d : Document) : InvertedIndex :=
  { st with
    index := fun k =>
      if k ∈ d.extract_keywords then some (insert d.docId ((st.index k).getD ∅))
      else st.index k }

/-- Lines 61–69 of seo.py.  `if keyword in self.cache: return self.cache[keyword]`;
otherwise `result = self.index.get(keyword.lower(), set())`, cache it under
the raw keyword, return it.  When the keyword is `None` the cache check
misses and `keyword.lower()` raises `AttributeError`, surfaced to the
caller before any cache write. -/
def InvertedIndex.get_documents (st : InvertedIndex) (keyword : Option String) :
    Except PyErr (Finset ℕ × InvertedIndex) :=
  match st.cache keyword with
  | some cached => .ok (cached, st)
  | none =>
    match keyword with
    | none => .error (.attributeError "NoneType object has no attribute lower")
    | some s =>
      let result := (st.index (pyLower s)).getD ∅
      .ok (result, { st with cache := fun k => if k = keyword then some result else st.cache k })

/-- The set a caller receives from `get_documents`, if the call succeeds. -/
def queryResult (st : InvertedIndex) (keyword : Option String) : Option (Finset ℕ) :=
  (st.get_documents keyword).toOption.map Prod.fst

/-- One external call into the index: an ingestion (`add_document`) or a
query (`get_documents`).  A query that raises leaves the state unchanged
(the cache write on line 68 is after the raising expression on line 67). -/
inductive Op where
  | add (d : Document)
  | query (kw : Option String)

/-- State transition of one operation. -/
def runOp (st : InvertedIndex) : Op → InvertedIndex
  | .add d => st.add_document d
  | .query kw =>
    match st.get_documents kw with
    | .ok (_, st') => st'
    | .error _ => st

/-- The index state reached from a fresh index by a sequence of operations. -/
def runAll (ops : List Op) : InvertedIndex :=
  ops.foldl runOp InvertedIndex.init

/-! ## PriorityQueue (seo.py lines 72–90) -/

/-- Lexicographic comparison of Python tuples `(-score, doc_id)`, the
order `heapq` uses on the heap entries. -/
def heapLe (a b : ℚ × ℕ) : Prop :=
  a.1 < b.1 ∨ (a.1 = b.1 ∧ a.2 ≤ b.2)

instance : DecidableRel heapLe := fun a b => by
  unfold heapLe; infer_instance

instance : IsTotal (ℚ × ℕ) heapLe where
  total a b := by
    rcases lt_trichotomy a.1 b.1 with h | h | h
    · exact Or.inl (Or.inl h)
    · rcases Nat.le_total a.2 b.2 with h2 | h2
      · exact Or.inl (Or.inr ⟨h, h2⟩)
      · exact Or.inr (Or.inr ⟨h.symm, h2⟩)
    · exact Or.inr (Or.inl h)

instance : IsTrans (ℚ × ℕ) heapLe where
  trans a b c hab hbc := by
    rcases hab with hab | ⟨hab, hab2⟩
    · rcases hbc with hbc | ⟨hbc, _⟩
      · exact Or.inl (hab.trans hbc)
      · exact Or.inl (hbc ▸ hab)
    · rcases hbc with hbc | ⟨hbc, hbc2⟩
      · exact Or.inl (hab ▸ hbc)
      · exact Or.inr ⟨hab.trans hbc, hab2.trans hbc2⟩

instance : IsAntisymm (ℚ × ℕ) heapLe where
  antisymm a b hab hba := by
    rcases hab with hab | ⟨hab, hab2⟩
    · rcases hba with hba | ⟨hba, _⟩
      · exact absurd (hab.trans hba) (lt_irrefl _)
      · exact absurd hab (hba ▸ lt_irrefl _)
    · rcases hba with hba | ⟨_, hba2⟩
      · exact absurd hba (hab ▸ lt_irrefl _)
      · exact Prod.ext hab (le_antisymm hab2 hba2)

/-- Lines 72–75 of seo.py: the queue is a `heapq` heap of
`(-score, doc_id)` pairs.  `heapq`'s observable contract — `heappop`
removes a least element under lexicographic tuple order — is realised by
keeping the list ordered and popping the head. -/
structure PriorityQueue where
  heap : List (ℚ × ℕ)

/-- Line 75: `self.heap = []`. -/
def PriorityQueue.empty : PriorityQueue := ⟨[]⟩

/-- Lines 77–79: `heapq.heappush(self.heap, (-item[1], item[0]))`. -/
def PriorityQueue.insert (q : PriorityQueue) (item : ℕ × ℚ) : PriorityQueue :=
  ⟨List.orderedInsert heapLe (-item.2, item.1) q.heap⟩

/-- Lines 81–86: return `None` on an empty heap, else pop the least
`(-score, doc_id)` entry and return `(doc_id, -(-score))`. -/
def PriorityQueue.extract_max (q : PriorityQueue) : Option ((ℕ × ℚ) × PriorityQueue) :=
  match q.heap with
  | [] => none
  | m :: rest => some ((m.2, -m.1), ⟨rest⟩)

/-- Lines 88–90: `len(self.heap) == 0`. -/
def PriorityQueue.is_empty (q : PriorityQueue) : Bool :=
  q.heap.length == 0

/-- The sequence of pairs produced by repeated `extract_max` until empty,
expressed on the underlying heap list. -/
def drainHeap : List (ℚ × ℕ) → List (ℕ × ℚ)
  | [] => []
  | m :: rest => (m.2, -m.1) :: drainHeap rest

/-- Repeatedly calling `extract_max` until `is_empty`. -/
def PriorityQueue.drain (q : PriorityQueue) : List (ℕ × ℚ) :=
  drainHeap q.heap

/-- Inserting a batch of `(doc_id, score)` pairs into a fresh queue. -/
def buildQueue (inserts : List (ℕ × ℚ)) : PriorityQueue :=
  inserts.foldl PriorityQueue.insert PriorityQueue.empty

/-- The ranking order claimed for the drain sequence: score non-increasing,
equal scores broken by ascending document identifier. -/
def rankOrd (a b : ℕ × ℚ) : Prop :=
  b.2 < a.2 ∨ (a.2 = b.2 ∧ a.1 ≤ b.1)

-- sanity checks while developing
example : pyWords "SEO is important, for Websites." =
    ["seo", "is", "important", "for", "websites"] := by decide
example : Document.extract_keywords ⟨1, some "seo seo seo"⟩ = {"seo"} := by decide
example : PriorityQueue.drain (buildQueue [(1, 2), (2, 5), (3, 2)]) =
    [(2, 5), (1, 2), (3, 2)] := by decide

/-! ## Claim C8: idempotence of `add_document` -/

theorem add_document_twice_eq (st : InvertedIndex) (d : Document) :
    (st.add_document d).add_document d = st.add_document d := by
  unfold InvertedIndex.add_document
  congr 1
  funext k
  by_cases h : k ∈ d.extract_keywords <;> simp [h]

/-- C8: adding the same document (with unchanged content) twice yields the
same `get_documents` result for every keyword as adding it once. -/
theorem c8_add_document_idempotent (st : InvertedIndex) (d : Document)
    (kw : Option String) :
    ((st.add_document d).add_document d).get_documents kw =
      (st.add_document d).get_documents kw := by
  rw [add_document_twice_eq]

/-! ## Claim C5: emptiness signalling of `extract_max` -/

/-- C5 counterexample: the claim says `extract_max` "never returns None",
but seo.py line 84 returns `None` (embedded as `Option.none`) on the empty
queue. -/
theorem c5_extract_max_returns_none_on_empty :
    PriorityQueue.extract_max PriorityQueue.empty = none := rfl

/-- C5 (amended): whenever the queue is empty, `extract_max` signals
emptiness by returning `None` (embedded `Option.none`), a distinguished
result that cannot collide with any legitimate `(doc_id, score)` pair; a
pair is returned only from a non-empty queue. -/
theorem c5_empty_signalled_by_none (q : PriorityQueue) :
    (q.is_empty = true → q.extract_max = none) ∧
    (∀ p q', q.extract_max = some (p, q') → q.is_empty = false) := by
  cases h : q.heap <;>
    simp [PriorityQueue.is_empty, PriorityQueue.extract_max, h]

/-- Witness for C5 on the concrete empty queue. -/
theorem c5_empty_signalled_by_none_witness :
    PriorityQueue.empty.is_empty = true ∧
      PriorityQueue.empty.extract_max = none :=
  ⟨rfl, (c5_empty_signalled_by_none PriorityQueue.empty).1 rfl⟩

/-! ## Claims C1 and C2: the never-invalidated cache -/

/-- History exhibiting the stale cache for C1: query "seo" on the fresh
index (caching the empty result), then add document 1 whose content
contains the keyword "seo". -/
def c1State : InvertedIndex :=
  runAll [.query (some "seo"), .add ⟨1, some "seo"⟩]

/-- C1 is violated by the code: after `add_document` introduces keyword
"seo" for document 1, a later `get_documents "seo"` still serves the
cache entry computed before the mutation — it returns `∅`, not a set
containing 1, even though the index itself maps "seo" to `{1}`.
`add_document` (lines 53–59) never invalidates `self.cache`. -/
theorem c1_stale_cache_served :
    "seo" ∈ Document.extract_keywords ⟨1, some "seo"⟩ ∧
    c1State.index "seo" = some {1} ∧
    queryResult c1State (some "seo") = some ∅ ∧
    (1 : ℕ) ∉ (∅ : Finset ℕ) := by decide

/-- History exhibiting the stale cache for C2: query "seo" on the fresh
index, then add document 2 with content "advanced seo techniques". -/
def c2State : InvertedIndex :=
  runAll [.query (some "seo"), .add ⟨2, some "advanced seo techniques"⟩]

/-- C2 is violated by the code: "seo" is a token of document 2's content,
yet a `get_documents "seo"` performed after `add_document` returns the
stale cached `∅`, which does not contain 2.  Retrieval completeness
fails whenever the keyword was queried before the add. -/
theorem c2_completeness_defeated_by_stale_cache :
    "seo" ∈ pyWords "advanced seo techniques" ∧
    queryResult c2State (some "seo") = some ∅ ∧
    (2 : ℕ) ∉ (∅ : Finset ℕ) := by decide

/-! ## Claim C3: the tokenizer contract -/

/-- The tokenizer exactly as claim C3 states it: lowercase; remove every
character that is not alphanumeric or whitespace; split on runs of
whitespace; return the set of non-empty tokens. -/
def specTokenize (text : String) : Finset String :=
  ((wsSplitAux ((text.data.map Char.toLower).filter
      (fun ch => ch.isAlphanum || isPySpace ch)) []).map String.mk).toFinset

/-- The tokenizer contract of C3 amended as the counterexample forces:
characters that are alphanumeric, an underscore, or whitespace are kept
(Python's `\w` keeps the underscore); everything else is removed. -/
def specTokenizeAmended (text : String) : Finset String :=
  ((wsSplitAux ((text.data.map Char.toLower).filter
      (fun ch => ch.isAlphanum || ch == '_' || isPySpace ch)) []).map String.mk).toFinset

/-- C3 counterexample: on content `"a_b"` the claimed contract removes the
underscore (token `"ab"`), but `extract_keywords` keeps it (token
`"a_b"`), because `re.sub(r'[^\w\s]', '', ·)` preserves `\w`'s
underscore. -/
theorem c3_underscore_not_removed :
    specTokenize "a_b" = {"ab"} ∧
    Document.extract_keywords ⟨1, some "a_b"⟩ = {"a_b"} ∧
    Document.extract_keywords ⟨1, some "a_b"⟩ ≠ specTokenize "a_b" := by
  decide

/-- C3 (amended): `extract_keywords` lowercases the text, removes every
character that is not alphanumeric, an underscore, or whitespace, splits
on runs of whitespace, and returns the set of non-empty tokens; it
returns `∅` for absent (`None`) and empty content. -/
theorem c3_amended_tokenizer_contract :
    (∀ (i : ℕ) (c : String),
      Document.extract_keywords ⟨i, some c⟩ = specTokenizeAmended c) ∧
    (∀ i : ℕ, Document.extract_keywords ⟨i, none⟩ = ∅) ∧
    specTokenizeAmended "" = ∅ := by
  have hpred : keepChar = fun ch => ch.isAlphanum || ch == '_' || isPySpace ch := by
    funext ch
    simp [keepChar, isWordChar, Bool.or_assoc]
  refine ⟨fun i c => ?_, fun i => rfl, rfl⟩
  simp [Document.extract_keywords, specTokenizeAmended, pyWords, hpred]

/-! ## Reachability invariant: C9 and C7 -/

/-- Every word produced by the splitter is a non-empty character list. -/
theorem mem_wsSplitAux_ne_nil :
    ∀ (cs acc : List Char), ∀ w ∈ wsSplitAux cs acc, w ≠ [] := by
  intro cs
  induction cs with
  | nil =>
    intro acc w hw
    unfold wsSplitAux at hw
    by_cases h : acc.isEmpty <;> simp [h] at hw
    subst hw
    simpa [List.isEmpty_iff] using h
  | cons c cs ih =>
    intro acc w hw
    unfold wsSplitAux at hw
    by_cases hsp : isPySpace c
    · by_cases h : acc.isEmpty
      · simp [hsp, h] at hw
        exact ih [] w hw
      · simp [hsp, h] at hw
        rcases hw with hw | hw
        · subst hw; simpa [List.isEmpty_iff] using h
        · exact ih [] w hw
    · simp [hsp] at hw
      exact ih (c :: acc) w hw

/-- No token produced by `pyWords` is the empty string. -/
theorem pyWords_ne_empty (s : String) : ∀ w ∈ pyWords s, w ≠ "" := by
  intro w hw
  unfold pyWords at hw
  rcases List.mem_map.mp hw with ⟨l, hl, rfl⟩
  have := mem_wsSplitAux_ne_nil _ _ l hl
  simpa [String.ext_iff] using this

/-- The empty string is never an extracted keyword. -/
theorem empty_not_keyword (d : Document) : "" ∉ d.extract_keywords := by
  unfold Document.extract_keywords
  cases d.content with
  | none => simp
  | some c =>
    simp only [List.mem_toFinset]
    intro h
    exact pyWords_ne_empty c "" h rfl

/-- Invariant of every reachable index state: the empty string has no
index entry, the cache entry for the empty-string query (if any) is `∅`,
and the `None` query has never been cached. -/
def GoodState (st : InvertedIndex) : Prop :=
  st.index "" = none ∧
  (st.cache (some "") = none ∨ st.cache (some "") = some ∅) ∧
  st.cache none = none

theorem goodState_init : GoodState InvertedIndex.init :=
  ⟨rfl, Or.inl rfl, rfl⟩

/-- A cache hit leaves the state unchanged. -/
theorem runOp_query_hit (st : InvertedIndex) (kw : Option String) (r : Finset ℕ)
    (h : st.cache kw = some r) : runOp st (.query kw) = st := by
  simp [runOp, InvertedIndex.get_documents, h]

/-- An uncached `None` query raises and leaves the state unchanged. -/
theorem runOp_query_none (st : InvertedIndex)
    (h : st.cache none = none) : runOp st (.query none) = st := by
  simp [runOp, InvertedIndex.get_documents, h]

/-- A cache miss on a string keyword stores the index lookup result under
the raw keyword. -/
theorem runOp_query_miss (st : InvertedIndex) (s : String)
    (h : st.cache (some s) = none) :
    runOp st (.query (some s)) =
      { st with cache := fun k =>
          if k = some s then some ((st.index (pyLower s)).getD ∅) else st.cache k } := by
  simp [runOp, InvertedIndex.get_documents, h]

theorem goodState_runOp (st : InvertedIndex) (op : Op) (h : GoodState st) :
    GoodState (runOp st op) := by
  obtain ⟨hidx, hcache, hnone⟩ := h
  cases op with
  | add d =>
    refine ⟨?_, hcache, hnone⟩
    simp only [runOp, InvertedIndex.add_document]
    rw [if_neg (empty_not_keyword d), hidx]
  | query kw =>
    cases hc : st.cache kw with
    | some cached =>
      rw [runOp_query_hit st kw cached hc]
      exact ⟨hidx, hcache, hnone⟩
    | none =>
      cases kw with
      | none =>
        rw [runOp_query_none st hc]
        exact ⟨hidx, hcache, hnone⟩
      | some s =>
        rw [runOp_query_miss st s hc]
        refine ⟨hidx, ?_, ?_⟩
        · by_cases hs : s = ""
          · subst hs
            right
            have hl : pyLower "" = "" := rfl
            simp only [if_pos rfl, hl, hidx]
            rfl
          · simp only [if_neg (fun hcon => hs (Option.some_inj.mp hcon).symm)]
            exact hcache
        · simp only [if_neg (by simp : (none : Option String) ≠ some s)]
          exact hnone

theorem goodState_runAll (ops : List Op) : GoodState (runAll ops) := by
  have main : ∀ (l : List Op) (st : InvertedIndex), GoodState st →
      GoodState (l.foldl runOp st) := by
    intro l
    induction l with
    | nil => intro st h; exact h
    | cons op l ih => intro st h; exact ih _ (goodState_runOp st op h)
  exact main ops _ goodState_init

/-- C9: in every reachable index state (any sequence of `add_document`
and `get_documents` calls starting from the fresh index), looking up the
empty-string keyword succeeds and returns the empty set, because no token
produced by tokenization is ever the empty string and hence neither the
index nor the cache ever associates a non-empty set with it. -/
theorem c9_empty_keyword_lookup (ops : List Op) :
    queryResult (runAll ops) (some "") = some ∅ := by
  obtain ⟨hidx, hcache, -⟩ := goodState_runAll ops
  unfold queryResult InvertedIndex.get_documents
  have hl : pyLower "" = "" := rfl
  rcases hcache with hc | hc <;> simp [hc, hl, hidx] <;> exact ⟨_, rfl⟩

/-- C7: in every reachable index state, `get_documents` on any well-formed
(string) keyword succeeds — no operation raises — while a `None` keyword
fails with the error raised by the invalid argument itself
(`AttributeError` from `keyword.lower()` on `None`), surfaced to the
caller before any state change. -/
theorem c7_none_keyword_fails (ops : List Op) :
    (∀ s : String, ∃ r st',
        (runAll ops).get_documents (some s) = .ok (r, st')) ∧
    (runAll ops).get_documents none =
      .error (.attributeError "NoneType object has no attribute lower") := by
  obtain ⟨-, -, hnone⟩ := goodState_runAll ops
  constructor
  · intro s
    cases hc : (runAll ops).cache (some s) with
    | some r =>
      exact ⟨r, runAll ops, by simp [InvertedIndex.get_documents, hc]⟩
    | none =>
      cases hgd : (runAll ops).get_documents (some s) with
      | ok p => exact ⟨p.1, p.2, rfl⟩
      | error e =>
        exfalso
        simp [InvertedIndex.get_documents, hc] at hgd
  · simp [InvertedIndex.get_documents, hnone]

/-! ## Claim C4: drain order of the ranking queue -/

/-- `drain` is exactly the sequence obtained by repeatedly calling
`extract_max` until it signals emptiness. -/
theorem drain_eq_extract_max_iter (q : PriorityQueue) :
    q.drain = (match q.extract_max with
      | none => []
      | some (p, q') => p :: q'.drain) := by
  obtain ⟨heap⟩ := q
  cases heap <;> rfl

theorem foldl_insert_heap_sorted (l : List (ℕ × ℚ)) :
    ∀ h0 : List (ℚ × ℕ), h0.Sorted heapLe →
      ((l.foldl PriorityQueue.insert ⟨h0⟩).heap).Sorted heapLe := by
  induction l with
  | nil => intro h0 h; exact h
  | cons p l ih =>
    intro h0 h
    exact ih _ (List.Sorted.orderedInsert _ _ h)

theorem foldl_insert_heap_perm (l : List (ℕ × ℚ)) :
    ∀ h0 : List (ℚ × ℕ),
      ((l.foldl PriorityQueue.insert ⟨h0⟩).heap).Perm
        ((l.map fun p => (-p.2, p.1)) ++ h0) := by
  induction l with
  | nil => intro h0; simp
  | cons p l ih =>
    intro h0
    have h1 := ih (List.orderedInsert heapLe (-p.2, p.1) h0)
    have h2 : (List.orderedInsert heapLe (-p.2, p.1) h0).Perm ((-p.2, p.1) :: h0) :=
      List.perm_orderedInsert _ _ _
    have h3 := h1.trans (h2.append_left (l.map fun p => (-p.2, p.1)))
    have h4 : ((l.map fun p => (-p.2, p.1)) ++ ((-p.2, p.1) :: h0)).Perm
        (((p :: l).map fun p => (-p.2, p.1)) ++ h0) := by
      simp only [List.map_cons]
      exact List.perm_middle
    exact h3.trans h4

theorem drainHeap_eq_map (l : List (ℚ × ℕ)) :
    drainHeap l = l.map fun m => (m.2, -m.1) := by
  induction l with
  | nil => rfl
  | cons m l ih => simp [drainHeap, ih]

theorem heapLe_to_rankOrd (a b : ℚ × ℕ) (h : heapLe a b) :
    rankOrd (a.2, -a.1) (b.2, -b.1) := by
  rcases h with h | ⟨h1, h2⟩
  · exact Or.inl (by simpa using h)
  · exact Or.inr ⟨by simp [h1], h2⟩

/-- C4: for every batch of `(doc_id, score)` pairs inserted into a fresh
`PriorityQueue`, repeatedly calling `extract_max` until empty yields
exactly the inserted pairs (a permutation of them), in non-increasing
score order with equal scores broken by ascending document identifier;
and the drain sequence is the same for every insertion order of the same
multiset of pairs, so it is a deterministic function of the inserted
pairs. -/
theorem c4_drain_sorted_and_deterministic (inserts : List (ℕ × ℚ)) :
    (PriorityQueue.drain (buildQueue inserts)).Sorted rankOrd ∧
    (PriorityQueue.drain (buildQueue inserts)).Perm inserts ∧
    ∀ inserts' : List (ℕ × ℚ), inserts'.Perm inserts →
      PriorityQueue.drain (buildQueue inserts') =
        PriorityQueue.drain (buildQueue inserts) := by
  have hsorted : ∀ m : List (ℕ × ℚ), ((buildQueue m).heap).Sorted heapLe :=
    fun m => foldl_insert_heap_sorted m [] List.sorted_nil
  have hperm : ∀ m : List (ℕ × ℚ),
      ((buildQueue m).heap).Perm (m.map fun p => (-p.2, p.1)) := by
    intro m
    simpa using foldl_insert_heap_perm m []
  refine ⟨?_, ?_, ?_⟩
  · rw [PriorityQueue.drain, drainHeap_eq_map]
    exact List.Pairwise.map _ (fun a b h => heapLe_to_rankOrd a b h) (hsorted inserts)
  · rw [PriorityQueue.drain, drainHeap_eq_map]
    have h1 : (((buildQueue inserts).heap).map fun m => (m.2, -m.1)).Perm
        ((inserts.map fun p => (-p.2, p.1)).map fun m => (m.2, -m.1)) :=
      (hperm inserts).map _
    have h2 : ((inserts.map fun p => (-p.2, p.1)).map fun m => (m.2, -m.1)) = inserts := by
      rw [List.map_map]
      have hco : ((fun m : ℚ × ℕ => (m.2, -m.1)) ∘ fun p : ℕ × ℚ => (-p.2, p.1)) =
          fun p : ℕ × ℚ => p := by
        funext p
        simp
      rw [hco, List.map_id']
    rw [h2] at h1
    exact h1
  · intro inserts' hp
    have heq : (buildQueue inserts').heap = (buildQueue inserts).heap := by

      apply List.eq_of_perm_of_sorted _ (hsorted inserts') (hsorted inserts)
      exact ((hperm inserts').trans (hp.map _)).trans (hperm inserts).symm
    simp only [PriorityQueue.drain, heq]

/-- Witness for C4 at a concrete multiset of pairs and a concrete
reordering, with a tie between documents 2 and 3 at score 1. -/
theorem c4_drain_witness :
    (PriorityQueue.drain (buildQueue [(1, 2), (2, 1), (3, 1)])).Sorted rankOrd ∧
    (PriorityQueue.drain (buildQueue [(1, 2), (2, 1), (3, 1)])).Perm
      [(1, 2), (2, 1), (3, 1)] ∧
    PriorityQueue.drain (buildQueue [(3, 1), (1, 2), (2, 1)]) =
      PriorityQueue.drain (buildQueue [(1, 2), (2, 1), (3, 1)]) :=
  ⟨(c4_drain_sorted_and_deterministic [(1, 2), (2, 1), (3, 1)]).1,
   (c4_drain_sorted_and_deterministic [(1, 2), (2, 1), (3, 1)]).2.1,
   (c4_drain_sorted_and_deterministic [(1, 2), (2, 1), (3, 1)]).2.2
     [(3, 1), (1, 2), (2, 1)] (by decide)⟩

/-! ## Claim C6: the returned set is the live internal set

The pure model above cannot express Python object identity, so the same
source lines (47–69) are re-embedded at the reference level: `store` is
the arena of Python `set` objects, addresses are indices into it, and the
`index`/`cache` dicts hold addresses, exactly as Python dicts hold
references.  `get_documents` returns the *address* the caller receives. -/

/-- The unique keywords of a document in iteration order — the Python
`for keyword in keywords:` loop iterates the extracted set. -/
def docKeyList (d : Document) : List String :=
  match d.content with
  | none => []
  | some c => (pyWords c).dedup

theorem docKeyList_toFinset (d : Document) :
    (docKeyList d).toFinset = d.extract_keywords := by
  unfold docKeyList Document.extract_keywords
  cases d.content with
  | none => simp
  | some c =>
    apply Finset.ext
    intro w
    simp [List.mem_dedup]

/-- Reference-level index state: an arena of set objects plus the two
dicts holding addresses into it. -/
structure RefIndex where
  store : List (Finset ℕ)
  index : List (String × ℕ)
  cache : List (String × ℕ)
deriving DecidableEq

def RefIndex.init : RefIndex := ⟨[], [], []⟩

/-- Dereference a set object (Python reading a `set` through a reference). -/
def readSet (st : RefIndex) (a : ℕ) : Finset ℕ :=
  st.store.getD a ∅

/-- Mutate a set object in place (Python `set.add` through a reference). -/
def writeSet (st : RefIndex) (a : ℕ) (s : Finset ℕ) : RefIndex :=
  { st with store := st.store.set a s }

/-- Lines 56–59 for one keyword: ensure the keyword maps to a set object
(allocating a fresh empty one if absent), then add the doc id to that
object in place. -/
def addKeywordRef (did : ℕ) (st : RefIndex) (k : String) : RefIndex :=
  match List.lookup k st.index with
  | some a => writeSet st a (insert did (readSet st a))
  | none =>
    let a := st.store.length
    let st' : RefIndex :=
      { store := st.store ++ [(∅ : Finset ℕ)], index := (k, a) :: st.index, cache := st.cache }
    writeSet st' a (insert did (readSet st' a))

/-- Lines 53–59 at the reference level. -/
def RefIndex.add_document (st : RefIndex) (d : Document) : RefIndex :=
  (docKeyList d).foldl (addKeywordRef d.docId) st

/-- Lines 61–69 at the reference level: on a cache hit return the cached
address; on a miss `self.index.get(keyword.lower(), set())` yields either
the index's own set object or a freshly allocated empty one, which is
then stored in the cache and returned — never a copy. -/
def RefIndex.get_documents (st : RefIndex) (k : String) : ℕ × RefIndex :=
  match List.lookup k st.cache with
  | some a => (a, st)
  | none =>
    match List.lookup (pyLower k) st.index with
    | some a => (a, { st with cache := (k, a) :: st.cache })
    | none =>
      let a := st.store.length
      (a, { store := st.store ++ [(∅ : Finset ℕ)], index := st.index,
            cache := (k, a) :: st.cache })

/-- Index state after adding document 1 with content "seo". -/
def c6State1 : RefIndex := RefIndex.init.add_document ⟨1, some "seo"⟩

/-- The lookup a caller performs: it receives an address into the arena. -/
def c6Query1 : ℕ × RefIndex := c6State1.get_documents "seo"

/-- The caller mutating the returned set: `result.add(99)`. -/
def c6Mutated : RefIndex :=
  writeSet c6Query1.2 c6Query1.1 (insert 99 (readSet c6Query1.2 c6Query1.1))

/-- C6 is violated by the code: the set returned by `get_documents "seo"`
is the index's own live set object (same address), so the caller's
`result.add(99)` changes the index's mapping for "seo" from `{1}` to
`{1, 99}` and every future lookup of "seo" now returns `{1, 99}`. -/
theorem c6_returned_set_is_live :
    c6Query1.1 = (List.lookup "seo" c6State1.index).getD 0 ∧
    readSet c6State1 ((List.lookup "seo" c6State1.index).getD 0) = {1} ∧
    readSet c6Mutated ((List.lookup "seo" c6Mutated.index).getD 0) = {1, 99} ∧
    readSet c6Mutated (c6Mutated.get_documents "seo").1 = {1, 99} := by
  decide

/-! ## Claim C10: concurrent ingestion equals sequential ingestion

`add_document_in_parallel` (seo.py lines 93–96) submits one
`add_document` call per document to a `ThreadPoolExecutor`; the driver
waits for all futures.  Under the CPython GIL each individual dict/set
operation of lines 56–59 is atomic, but the threads interleave between
operations with no ordering guarantee.  The embedding makes each such
atomic operation an action (`PAct`) and lets an arbitrary schedule
interleave the per-document action lists. -/

/-- One atomic step of `add_document` on the shared `self.index` dict:
`ensure k` is lines 57–58 (`if keyword not in self.index:
self.index[keyword] = set()`), `ins k i` is line 59
(`self.index[keyword].add(doc_id)`). -/
inductive PAct where
  | ensure (k : String)
  | ins (k : String) (i : ℕ)
deriving DecidableEq

def PAct.key : PAct → String
  | .ensure k => k
  | .ins k _ => k

/-- The shared `self.index` dict as the concurrent adds see it. -/
abbrev CIndex := String → Option (Finset ℕ)

/-- Effect of one atomic action on the shared dict.  `ins` on a missing
key would raise `KeyError` (`none`); it cannot happen when the owning
thread's `ensure` precedes it and no other thread touches the key. -/
def applyAct (f : CIndex) : PAct → Option CIndex
  | .ensure k =>
    match f k with
    | some _ => some f
    | none => some (fun q => if q = k then some ∅ else f q)
  | .ins k i =>
    match f k with
    | some s => some (fun q => if q = k then some (insert i s) else f q)
    | none => none

/-- The atomic actions of one `add_document` call, in the keyword
iteration order of the `for` loop. -/
def docActs (d : Document) : List PAct :=
  ((docKeyList d).map (fun k => [PAct.ensure k, PAct.ins k d.docId])).flatten

/-- Global state of the concurrent run: the remaining action list of each
worker thread, and the shared dict (`none` once some action raised). -/
structure CState where
  pending : List (List PAct)
  idx : Option CIndex

/-- One scheduler step: thread `i` (if it exists and still has work)
performs its next atomic action.  The free choice of `i` models the
absence of any ordering guarantee between the pool's workers. -/
def cstep (st : CState) (i : ℕ) : CState :=
  match st.pending[i]? with
  | some (a :: rest) =>
    { pending := st.pending.set i rest, idx := st.idx.bind (fun f => applyAct f a) }
  | _ => st

/-- Run the N submitted `add_document` tasks under an arbitrary schedule,
starting from a fresh shared index. -/
def crun (docs : List Document) (sched : List ℕ) : CState :=
  sched.foldl cstep { pending := docs.map docActs, idx := some (fun _ => none) }

/-- All still-pending actions touching keyword `k`, in thread order. -/
def actsAt (k : String) (pending : List (List PAct)) : List PAct :=
  (pending.map (fun t => t.filter (fun a => a.key == k))).flatten

/-- The pointwise (single-key) effect of an action. -/
def applyK (v : Option (Finset ℕ)) : PAct → Option (Option (Finset ℕ))
  | .ensure _ => some (some (v.getD ∅))
  | .ins _ i =>
    match v with
    | some s => some (some (insert i s))
    | none => none

/-- Pointwise execution of a list of actions on one key's entry. -/
def runKey (v : Option (Finset ℕ)) : List PAct → Option (Option (Finset ℕ))
  | [] => some v
  | a :: l =>
    match applyK v a with
    | some w => runKey w l
    | none => none

/-- No two distinct pending threads have actions on the same keyword. -/
def KeysSep (pending : List (List PAct)) : Prop :=
  ∀ (i j : ℕ) (ti tj : List PAct), i ≠ j →
    pending[i]? = some ti → pending[j]? = some tj →
    ∀ a ∈ ti, ∀ b ∈ tj, PAct.key a ≠ PAct.key b

theorem applyAct_none_iff (f : CIndex) (a : PAct) :
    applyAct f a = none ↔ applyK (f a.key) a = none := by
  cases a with
  | ensure k => cases hf : f k <;> simp [applyAct, applyK, PAct.key, hf]
  | ins k i => cases hf : f k <;> simp [applyAct, applyK, PAct.key, hf]

theorem applyAct_some (f f' : CIndex) (a : PAct) (h : applyAct f a = some f') :
    applyK (f a.key) a = some (f' a.key) ∧ ∀ q, q ≠ a.key → f' q = f q := by
  cases a with
  | ensure k =>
    cases hf : f k with
    | some s =>
      rw [applyAct, hf] at h
      have hff : f = f' := by simpa using h
      subst hff
      exact ⟨by simp [applyK, PAct.key, hf], fun q _ => rfl⟩
    | none =>
      rw [applyAct, hf] at h
      have hf' : (fun q => if q = k then some (∅ : Finset ℕ) else f q) = f' := by
        simpa using h
      subst hf'
      refine ⟨by simp [applyK, PAct.key, hf], fun q hq => ?_⟩
      simp only [PAct.key] at hq
      simp [if_neg hq]
  | ins k i =>
    cases hf : f k with
    | some s =>
      rw [applyAct, hf] at h
      have hf' : (fun q => if q = k then some (insert i s) else f q) = f' := by
        simpa using h
      subst hf'
      refine ⟨by simp [applyK, PAct.key, hf], fun q hq => ?_⟩
      simp only [PAct.key] at hq
      simp [if_neg hq]
    | none =>
      rw [applyAct, hf] at h
      simp at h

theorem actsAt_cons (k : String) (t : List PAct) (pending : List (List PAct)) :
    actsAt k (t :: pending) = t.filter (fun a => a.key == k) ++ actsAt k pending := by
  simp [actsAt]

/-- Popping the head action `a` of thread `i`: `a` is the first pending
action on its own keyword (no other thread touches that keyword), and
the pending actions on every other keyword are unchanged. -/
theorem actsAt_step :
    ∀ (pending : List (List PAct)) (i : ℕ) (a : PAct) (rest : List PAct),
      pending[i]? = some (a :: rest) →
      (∀ (j : ℕ) (tj : List PAct), j ≠ i → pending[j]? = some tj →
        ∀ b ∈ tj, PAct.key b ≠ PAct.key a) →
      actsAt (PAct.key a) pending = a :: actsAt (PAct.key a) (pending.set i rest) ∧
      ∀ k, k ≠ PAct.key a → actsAt k (pending.set i rest) = actsAt k pending := by
  intro pending
  induction pending with
  | nil => intro i a rest h; simp at h
  | cons t ps ih =>
    intro i a rest hget hsep
    cases i with
    | zero =>
      have ht : t = a :: rest := by simpa using hget
      subst ht
      constructor
      · rw [show ((a :: rest) :: ps).set 0 rest = rest :: ps from rfl,
            actsAt_cons, actsAt_cons, List.filter_cons]
        simp
      · intro k hk
        rw [show ((a :: rest) :: ps).set 0 rest = rest :: ps from rfl,
            actsAt_cons, actsAt_cons, List.filter_cons]
        have : (PAct.key a == k) = false := by
          simpa using fun hc => hk hc.symm
        simp [this]
    | succ n =>
      have hget' : ps[n]? = some (a :: rest) := by simpa using hget
      have hsep' : ∀ (j : ℕ) (tj : List PAct), j ≠ n → ps[j]? = some tj →
          ∀ b ∈ tj, PAct.key b ≠ PAct.key a := by
        intro j tj hj hjget b hb
        exact hsep (j + 1) tj (by omega) (by simpa using hjget) b hb
      obtain ⟨h1, h2⟩ := ih n a rest hget' hsep'
      have hsep0 : ∀ b ∈ t, PAct.key b ≠ PAct.key a :=
        hsep 0 t (by omega) (by simp)
      have hfilter0 : t.filter (fun b => b.key == PAct.key a) = [] := by
        rw [List.filter_eq_nil_iff]
        intro b hb
        simpa using hsep0 b hb
      constructor
      · rw [show ((t :: ps).set (n + 1) rest) = t :: ps.set n rest from rfl,
            actsAt_cons, actsAt_cons, hfilter0, h1]
        simp
      · intro k hk
        rw [show ((t :: ps).set (n + 1) rest) = t :: ps.set n rest from rfl,
            actsAt_cons, actsAt_cons, h2 k hk]

/-- Consuming an action preserves keyword separation. -/
theorem keysSep_set (pending : List (List PAct)) (i : ℕ) (a : PAct)
    (rest : List PAct) (hget : pending[i]? = some (a :: rest))
    (h : KeysSep pending) : KeysSep (pending.set i rest) := by
  have hlen : i < pending.length := by
    by_contra hc
    push_neg at hc
    rw [List.getElem?_eq_none hc] at hget
    exact absurd hget (by simp)
  have hsub : ∀ (x : ℕ) (tx : List PAct), (pending.set i rest)[x]? = some tx →
      ∃ t0, pending[x]? = some t0 ∧ ∀ b ∈ tx, b ∈ t0 := by
    intro x tx hx
    by_cases hxi : x = i
    · subst hxi
      rw [List.getElem?_set_self hlen] at hx
      refine ⟨a :: rest, hget, ?_⟩
      intro b hb
      have : rest = tx := by simpa using hx
      subst this
      exact List.mem_cons_of_mem a hb
    · rw [List.getElem?_set_ne (fun hc => hxi hc.symm)] at hx
      exact ⟨tx, hx, fun b hb => hb⟩
  intro x y tx ty hxy hx hy p hp q hq
  obtain ⟨t0x, h0x, hmx⟩ := hsub x tx hx
  obtain ⟨t0y, h0y, hmy⟩ := hsub y ty hy
  exact h x y t0x t0y hxy h0x h0y p (hmx p hp) q (hmy q hq)

theorem cstep_no_thread (pending : List (List PAct)) (oi : Option CIndex)
    (i : ℕ) (h : pending[i]? = none) :
    cstep ⟨pending, oi⟩ i = ⟨pending, oi⟩ := by
  simp [cstep, h]

theorem cstep_done_thread (pending : List (List PAct)) (oi : Option CIndex)
    (i : ℕ) (h : pending[i]? = some []) :
    cstep ⟨pending, oi⟩ i = ⟨pending, oi⟩ := by
  simp [cstep, h]

theorem cstep_act (pending : List (List PAct)) (f : CIndex) (i : ℕ)
    (a : PAct) (rest : List PAct) (h : pending[i]? = some (a :: rest)) :
    cstep ⟨pending, some f⟩ i = ⟨pending.set i rest, applyAct f a⟩ := by
  simp [cstep, h]

theorem actsAt_of_all_nil :
    ∀ (pending : List (List PAct)), (∀ l ∈ pending, l = []) →
      ∀ k, actsAt k pending = [] := by
  intro pending
  induction pending with
  | nil => intro _ k; rfl
  | cons t ps ih =>
    intro h k
    rw [actsAt_cons, h t (List.mem_cons_self t ps),
        ih (fun l hl => h l (List.mem_cons_of_mem t hl)) k]
    rfl

/-- Main interleaving lemma: from any configuration whose threads touch
pairwise-disjoint keyword sets and whose per-key action runs succeed, a
schedule that completes all pending work produces the shared dict whose
value at each key is the pointwise run of the pending actions on that
key — independently of the schedule. -/
theorem crun_aux :
    ∀ (sched : List ℕ) (pending : List (List PAct)) (f : CIndex),
      KeysSep pending →
      (∀ k, (runKey (f k) (actsAt k pending)).isSome) →
      (∀ l ∈ (sched.foldl cstep ⟨pending, some f⟩).pending, l = []) →
      ∃ g, (sched.foldl cstep ⟨pending, some f⟩).idx = some g ∧
        ∀ k, runKey (f k) (actsAt k pending) = some (g k) := by
  intro sched
  induction sched with
  | nil =>
    intro pending f hsep hsome hdone
    refine ⟨f, rfl, ?_⟩
    intro k
    rw [actsAt_of_all_nil pending hdone k]
    rfl
  | cons i sched ih =>
    intro pending f hsep hsome hdone
    rw [List.foldl_cons] at hdone ⊢
    cases hp : pending[i]? with
    | none =>
      rw [cstep_no_thread pending (some f) i hp] at hdone ⊢
      exact ih pending f hsep hsome hdone
    | some t =>
      cases t with
      | nil =>
        rw [cstep_done_thread pending (some f) i hp] at hdone ⊢
        exact ih pending f hsep hsome hdone
      | cons a rest =>
        rw [cstep_act pending f i a rest hp] at hdone ⊢
        have hsep_i : ∀ (j : ℕ) (tj : List PAct), j ≠ i → pending[j]? = some tj →
            ∀ b ∈ tj, PAct.key b ≠ PAct.key a := by
          intro j tj hj hjget b hb
          exact (hsep i j (a :: rest) tj (Ne.symm hj) hp hjget a
            (List.mem_cons_self a rest) b hb).symm
        obtain ⟨h1, h2⟩ := actsAt_step pending i a rest hp hsep_i
        have hex : ∃ f', applyAct f a = some f' := by
          cases hap : applyAct f a with
          | some f0 => exact ⟨f0, rfl⟩
          | none =>
            exfalso
            have hK := (applyAct_none_iff f a).mp hap
            have hs := hsome (PAct.key a)
            rw [h1] at hs
            simp [runKey, hK] at hs
        obtain ⟨f', hf'⟩ := hex
        obtain ⟨hKsome, hother⟩ := applyAct_some f f' a hf'
        have htrans : ∀ k, runKey (f k) (actsAt k pending) =
            runKey (f' k) (actsAt k (pending.set i rest)) := by
          intro k
          by_cases hk : k = PAct.key a
          · subst hk
            rw [h1]
            simp [runKey, hKsome]
          · rw [h2 k hk, hother k hk]
        have hsep' := keysSep_set pending i a rest hp hsep
        have hsome' : ∀ k, (runKey (f' k) (actsAt k (pending.set i rest))).isSome := by
          intro k
          rw [← htrans k]
          exact hsome k
        rw [hf'] at hdone ⊢
        obtain ⟨g, hg1, hg2⟩ := ih (pending.set i rest) f' hsep' hsome' hdone
        exact ⟨g, hg1, fun k => (htrans k).trans (hg2 k)⟩

theorem runKey_append (l1 : List PAct) :
    ∀ (v : Option (Finset ℕ)) (l2 : List PAct),
      runKey v (l1 ++ l2) = (runKey v l1).bind (fun w => runKey w l2) := by
  induction l1 with
  | nil => intro v l2; rfl
  | cons a l1 ih =>
    intro v l2
    rw [List.cons_append]
    show (match applyK v a with
      | some w => runKey w (l1 ++ l2)
      | none => none) = _
    cases hK : applyK v a with
    | some w => simp [runKey, hK, ih w l2]
    | none => simp [runKey, hK]

theorem nodup_docKeyList (d : Document) : (docKeyList d).Nodup := by
  unfold docKeyList
  cases d.content with
  | none => exact List.nodup_nil
  | some c => exact List.nodup_dedup _

theorem mem_docKeyList (d : Document) (k : String) :
    k ∈ docKeyList d ↔ k ∈ d.extract_keywords := by
  rw [← docKeyList_toFinset, List.mem_toFinset]

theorem filter_key_blocks (did : ℕ) (k : String) :
    ∀ (ks : List String), ks.Nodup →
      (((ks.map (fun q => [PAct.ensure q, PAct.ins q did])).flatten).filter
          (fun a => a.key == k)) =
        if k ∈ ks then [PAct.ensure k, PAct.ins k did] else [] := by
  intro ks
  induction ks with
  | nil => intro _; simp
  | cons q ks ih =>
    intro hnd
    obtain ⟨hq, hnd2⟩ := List.nodup_cons.mp hnd
    rw [List.map_cons, List.flatten_cons, List.filter_append, ih hnd2]
    by_cases hqk : q = k
    · subst hqk
      rw [if_neg hq, if_pos (List.mem_cons_self q ks)]
      simp [PAct.key]
    · have hblock : ([PAct.ensure q, PAct.ins q did]).filter
          (fun a => a.key == k) = [] := by
        simp [PAct.key, hqk]
      rw [hblock]
      by_cases hmem : k ∈ ks
      · rw [if_pos hmem, if_pos (List.mem_cons_of_mem q hmem)]
        rfl
      · rw [if_neg hmem, if_neg (by
          intro hc
          rcases List.mem_cons.mp hc with hc | hc
          · exact hqk hc.symm
          · exact hmem hc)]
        rfl

/-- The pointwise run of `docs`' pending actions at key `k` equals the
pointwise sequential fold of `add_document` at `k`, and in particular
never raises. -/
theorem runKey_actsAt (k : String) :
    ∀ (docs : List Document) (v : Option (Finset ℕ)),
      runKey v (actsAt k (docs.map docActs)) =
        some (docs.foldl
          (fun w d => if k ∈ d.extract_keywords then some (insert d.docId (w.getD ∅)) else w)
          v) := by
  intro docs
  induction docs with
  | nil => intro v; rfl
  | cons d docs ih =>
    intro v
    rw [List.map_cons, actsAt_cons, runKey_append]
    have hf : (docActs d).filter (fun a => a.key == k) =
        if k ∈ docKeyList d then [PAct.ensure k, PAct.ins k d.docId] else [] := by
      unfold docActs
      exact filter_key_blocks d.docId k (docKeyList d) (nodup_docKeyList d)
    rw [hf, List.foldl_cons]
    by_cases hk : k ∈ docKeyList d
    · rw [if_pos hk, if_pos ((mem_docKeyList d k).mp hk)]
      have hrk : runKey v [PAct.ensure k, PAct.ins k d.docId] =
          some (some (insert d.docId (v.getD ∅))) := by
        cases v <;> rfl
      rw [hrk]
      exact ih (some (insert d.docId (v.getD ∅)))
    · rw [if_neg hk, if_neg (fun hc => hk ((mem_docKeyList d k).mpr hc))]
      exact ih v

/-- Pointwise description of the sequential `add_document` fold. -/
theorem seq_index_pointwise (k : String) :
    ∀ (docs : List Document) (st : InvertedIndex),
      (docs.foldl InvertedIndex.add_document st).index k =
        docs.foldl
          (fun w d => if k ∈ d.extract_keywords then some (insert d.docId (w.getD ∅)) else w)
          (st.index k) := by
  intro docs
  induction docs with
  | nil => intro st; rfl
  | cons d docs ih =>
    intro st
    rw [List.foldl_cons, List.foldl_cons]
    exact ih (st.add_document d)

theorem key_mem_docActs (d : Document) (a : PAct) (ha : a ∈ docActs d) :
    PAct.key a ∈ d.extract_keywords := by
  unfold docActs at ha
  rw [List.mem_flatten] at ha
  obtain ⟨bl, hbl, hab⟩ := ha
  rw [List.mem_map] at hbl
  obtain ⟨q, hq, rfl⟩ := hbl
  have hkey : PAct.key a = q := by
    rcases List.mem_cons.mp hab with h | h
    · subst h; rfl
    · rcases List.mem_cons.mp h with h | h
      · subst h; rfl
      · exact absurd h (List.not_mem_nil a)
  rw [hkey, ← docKeyList_toFinset]
  exact List.mem_toFinset.mpr hq

/-- Pairwise keyword-disjoint documents give pairwise key-separated
thread action lists. -/
theorem keysSep_init (docs : List Document)
    (hdisj : docs.Pairwise
      (fun a b => Disjoint a.extract_keywords b.extract_keywords)) :
    KeysSep (docs.map docActs) := by
  intro i j ti tj hij hi hj a ha b hb
  rw [List.getElem?_map] at hi hj
  cases hdi : docs[i]? with
  | none => rw [hdi] at hi; exact absurd hi (by simp)
  | some di =>
    cases hdj : docs[j]? with
    | none => rw [hdj] at hj; exact absurd hj (by simp)
    | some dj =>
      rw [hdi] at hi
      rw [hdj] at hj
      have hti : docActs di = ti := by simpa using hi
      have htj : docActs dj = tj := by simpa using hj
      subst hti
      subst htj
      have hleni : i < docs.length := by
        by_contra hc
        push_neg at hc
        rw [List.getElem?_eq_none hc] at hdi
        exact absurd hdi (by simp)
      have hlenj : j < docs.length := by
        by_contra hc
        push_neg at hc
        rw [List.getElem?_eq_none hc] at hdj
        exact absurd hdj (by simp)
      have hgi : docs[i] = di := by
        have := List.getElem?_eq_getElem hleni
        rw [hdi] at this
        exact (Option.some_inj.mp this).symm
      have hgj : docs[j] = dj := by
        have := List.getElem?_eq_getElem hlenj
        rw [hdj] at this
        exact (Option.some_inj.mp this).symm
      have hdisj_ij : Disjoint di.extract_keywords dj.extract_keywords := by
        rcases Nat.lt_or_ge i j with h | h
        · have := List.pairwise_iff_getElem.mp hdisj i j hleni hlenj h
          rwa [hgi, hgj] at this
        · have hji : j < i := by omega
          have := List.pairwise_iff_getElem.mp hdisj j i hlenj hleni hji
          rw [hgi, hgj] at this
          exact this.symm
      have hka := key_mem_docActs di a ha
      have hkb := key_mem_docActs dj b hb
      intro hc
      exact (Finset.disjoint_left.mp hdisj_ij hka) (hc ▸ hkb)

/-- `add_document` calls for keyword-disjoint documents commute. -/
theorem add_document_comm (a b : Document)
    (hd : Disjoint a.extract_keywords b.extract_keywords)
    (st : InvertedIndex) :
    (st.add_document a).add_document b = (st.add_document b).add_document a := by
  unfold InvertedIndex.add_document
  congr 1
  funext k
  by_cases hak : k ∈ a.extract_keywords
  · have hbk : k ∉ b.extract_keywords := Finset.disjoint_left.mp hd hak
    simp [hak, hbk]
  · by_cases hbk : k ∈ b.extract_keywords <;> simp [hak, hbk]

/-- C10: if the documents have pairwise-disjoint keyword sets, then any
complete interleaved execution of the N `add_document` calls submitted
by `add_document_in_parallel` (no action raises, every pending action is
consumed) yields exactly the keyword → id-set mapping of the sequential
execution, and the sequential mapping itself is the same for every
execution order of the N calls. -/
theorem c10_concurrent_adds_equal_sequential (docs : List Document)
    (sched : List ℕ)
    (hdisj : docs.Pairwise
      (fun a b => Disjoint a.extract_keywords b.extract_keywords))
    (hdone : ∀ l ∈ (crun docs sched).pending, l = []) :
    (crun docs sched).idx =
      some ((docs.foldl InvertedIndex.add_document InvertedIndex.init).index) ∧
    ∀ docs' : List Document, docs'.Perm docs →
      (docs'.foldl InvertedIndex.add_document InvertedIndex.init).index =
        (docs.foldl InvertedIndex.add_document InvertedIndex.init).index := by
  constructor
  · unfold crun at hdone ⊢
    obtain ⟨g, hg1, hg2⟩ := crun_aux sched (docs.map docActs) (fun _ => none)
      (keysSep_init docs hdisj)
      (fun k => by rw [runKey_actsAt]; rfl)
      hdone
    rw [hg1]
    congr 1
    funext k
    have h1 := hg2 k
    rw [runKey_actsAt] at h1
    have h2 := Option.some_inj.mp h1
    rw [seq_index_pointwise]
    exact h2.symm
  · intro docs' hperm
    have hcomm : ∀ x ∈ docs', ∀ y ∈ docs', ∀ z : InvertedIndex,
        (z.add_document x).add_document y = (z.add_document y).add_document x := by
      intro x hx y hy z
      by_cases hxy : x = y
      · subst hxy; rfl
      · have hx' : x ∈ docs := hperm.mem_iff.mp hx
        have hy' : y ∈ docs := hperm.mem_iff.mp hy
        have hsym : Symmetric
            (fun a b : Document => Disjoint a.extract_keywords b.extract_keywords) :=
          fun p q h => h.symm
        have hd := (hdisj.forall hsym) hx' hy' (fun hc => hxy (hc ▸ rfl))
        exact add_document_comm x y hd z
    have := hperm.foldl_eq' hcomm InvertedIndex.init
    rw [this]

/-- Witness for C10: two keyword-disjoint documents whose atomic actions
are genuinely interleaved by the schedule `[0, 1, 0, 1, 0, 0]`, which
completes both threads. -/
theorem c10_concurrent_adds_witness :
    (([⟨1, some "alpha beta"⟩, ⟨2, some "gamma"⟩] : List Document).Pairwise
      (fun a b => Disjoint a.extract_keywords b.extract_keywords)) ∧
    (∀ l ∈ (crun [⟨1, some "alpha beta"⟩, ⟨2, some "gamma"⟩]
        [0, 1, 0, 1, 0, 0]).pending, l = []) ∧
    (crun [⟨1, some "alpha beta"⟩, ⟨2, some "gamma"⟩] [0, 1, 0, 1, 0, 0]).idx =
      some ((([⟨1, some "alpha beta"⟩, ⟨2, some "gamma"⟩] : List Document).foldl
        InvertedIndex.add_document InvertedIndex.init).index) :=
  ⟨by decide, by decide,
    (c10_concurrent_adds_equal_sequential
      [⟨1, some "alpha beta"⟩, ⟨2, some "gamma"⟩] [0, 1, 0, 1, 0, 0]
      (by decide) (by decide)).1⟩
